import Mathlib

/-!
Verification of the rle-eddy RLE codec family against its specification.

The definitions below are shallow embeddings of the C sources:
* `src/rle-genops.c` — the per-variant control-byte rule sets
  (`rle8_decode_*` / `rle8_encode_*`) and the table generator's
  min/max range scan (`rle8_generate_table`).
* `src/rle_goldbox.h` — `goldbox_compress` / `goldbox_decompress`.
* `src/test_utility.c` — `rle_count_rep` / `rle_count_cpy`.

Bytes are modelled as `Nat` values; wherever the C performs `uint8_t`
arithmetic that could wrap, the result is reduced `% 256` explicitly.
Buffers are `List Nat`.  Loops bounded by an explicit counter cap or by
the length of a buffer are modelled with a structural fuel argument whose
initial value is exactly that bound, so every definition computes by
kernel reduction.
-/

namespace RleZoo

/-- The `enum RLE_OP` type from `src/rle-genops.c`. -/
inductive RLE_OP where
  | CPY
  | REP
  | LIT
  | NOP
  | INVALID
deriving DecidableEq

/-- The `struct rle8` record from `src/rle-genops.c`: an operation kind plus a count. -/
structure Rle8 where
  op : RLE_OP
  cnt : Nat
deriving DecidableEq

/-- Embedding of `rle8_decode_packbits` (`src/rle-genops.c`).
For a byte `b > 0x80`, `1 - (int8_t)b` as `uint8_t` is `(257 - b) % 256`. -/
def rle8_decode_packbits (input : Nat) : Rle8 :=
  if 0x80 < input then
    ⟨RLE_OP.REP, (257 - input) % 256⟩
  else if input < 0x80 then
    ⟨RLE_OP.CPY, (input + 1) % 256⟩
  else if input = 0x80 then
    ⟨RLE_OP.NOP, 1⟩
  else
    -- Impossible -- all decodings are valid
    ⟨RLE_OP.INVALID, 0⟩

/-- Embedding of `rle8_encode_packbits` (`src/rle-genops.c`).
Note: in the `RLE_OP_NOP` branch the C code assigns only `res.cnt = 0x80`
and leaves `res.op` at its initial value `RLE_OP_INVALID`. -/
def rle8_encode_packbits (cmd : Rle8) : Rle8 :=
  if cmd.op = RLE_OP.REP then
    if 2 ≤ cmd.cnt ∧ cmd.cnt ≤ 128 then ⟨RLE_OP.REP, (257 - cmd.cnt) % 256⟩
    else ⟨RLE_OP.INVALID, 0⟩
  else if cmd.op = RLE_OP.CPY then
    if 1 ≤ cmd.cnt ∧ cmd.cnt ≤ 128 then ⟨RLE_OP.CPY, (cmd.cnt - 1) % 256⟩
    else ⟨RLE_OP.INVALID, 0⟩
  else if cmd.op = RLE_OP.NOP then
    ⟨RLE_OP.INVALID, 0x80⟩
  else
    ⟨RLE_OP.INVALID, 0⟩

/-- Embedding of `rle8_decode_goldbox` (`src/rle-genops.c`).
For a byte `b`, `(~b) + 1` as `uint8_t` is `(256 - b) % 256`. -/
def rle8_decode_goldbox (input : Nat) : Rle8 :=
  if 0x80 < input then
    ⟨RLE_OP.REP, (256 - input) % 256⟩
  else if input < 0x7e then
    ⟨RLE_OP.CPY, (input + 1) % 256⟩
  else
    ⟨RLE_OP.INVALID, 0⟩

/-- Embedding of `rle8_encode_goldbox` (`src/rle-genops.c`).
`1 + (~cnt)` as `uint8_t` is `(1 + (255 - cnt)) % 256`. -/
def rle8_encode_goldbox (cmd : Rle8) : Rle8 :=
  if cmd.op = RLE_OP.REP then
    if 1 ≤ cmd.cnt ∧ cmd.cnt ≤ 127 then ⟨RLE_OP.REP, (1 + (255 - cmd.cnt)) % 256⟩
    else ⟨RLE_OP.INVALID, 0⟩
  else if cmd.op = RLE_OP.CPY then
    if 1 ≤ cmd.cnt ∧ cmd.cnt ≤ 126 then ⟨RLE_OP.CPY, (cmd.cnt - 1) % 256⟩
    else ⟨RLE_OP.INVALID, 0⟩
  else
    ⟨RLE_OP.INVALID, 0⟩

/-- Embedding of `rle8_decode_pcx` (`src/rle-genops.c`). -/
def rle8_decode_pcx (input : Nat) : Rle8 :=
  if input &&& 0xC0 = 0xC0 then
    ⟨RLE_OP.REP, input &&& 0x3F⟩
  else
    ⟨RLE_OP.LIT, input % 256⟩

/-- Embedding of `rle8_encode_pcx` (`src/rle-genops.c`). -/
def rle8_encode_pcx (cmd : Rle8) : Rle8 :=
  if cmd.op = RLE_OP.REP then
    if cmd.cnt ≤ 63 then ⟨RLE_OP.REP, 0xC0 ||| cmd.cnt⟩
    else ⟨RLE_OP.INVALID, 0⟩
  else if cmd.op = RLE_OP.LIT then
    if cmd.cnt ≤ 191 then ⟨RLE_OP.LIT, cmd.cnt⟩
    else ⟨RLE_OP.INVALID, 0⟩
  else
    ⟨RLE_OP.INVALID, 0⟩

/-- The `INT_MAX` sentinel used by `rle8_generate_table`'s `minmax` array. -/
def cINT_MAX : Int := 2147483647

/-- The `INT_MIN` sentinel used by `rle8_generate_table`'s `minmax` array. -/
def cINT_MIN : Int := -2147483648

/-- One step of the `minmax` scan loop in `rle8_generate_table`
(`src/rle-genops.c`): slots are (CPY, REP, LIT); NOP and INVALID are
skipped. -/
def rle8_minmax_step (decode : Nat → Rle8) (mm : (Int × Int) × (Int × Int) × (Int × Int))
    (i : Nat) : (Int × Int) × (Int × Int) × (Int × Int) :=
  let cmd := decode i
  let upd : Int × Int → Int × Int := fun s =>
    let s0 := if (cmd.cnt : Int) < s.1 then ((cmd.cnt : Int), s.2) else s
    if (cmd.cnt : Int) > s0.2 then (s0.1, (cmd.cnt : Int)) else s0
  match cmd.op with
  | RLE_OP.CPY => (upd mm.1, mm.2.1, mm.2.2)
  | RLE_OP.REP => (mm.1, upd mm.2.1, mm.2.2)
  | RLE_OP.LIT => (mm.1, mm.2.1, upd mm.2.2)
  | RLE_OP.NOP => mm
  | RLE_OP.INVALID => mm

/-- The range-discovery scan of `rle8_generate_table` (`src/rle-genops.c`):
fold the decode function over all 256 byte values, tracking per-kind
(min, max) counts, starting from `(INT_MAX, INT_MIN)` sentinels. -/
def rle8_minmax (decode : Nat → Rle8) : (Int × Int) × (Int × Int) × (Int × Int) :=
  (List.range 256).foldl (rle8_minmax_step decode) ((cINT_MAX, cINT_MIN), (cINT_MAX, cINT_MIN), (cINT_MAX, cINT_MIN))

/-- The do-while loop of `rle_count_rep` (`src/test_utility.c`), entered with
`cnt = 1` (the loop body has already run once).  The loop condition caps
`cnt` below `max`, so `max` steps of fuel are never exhausted early. -/
def rle_count_rep_go (src : List Nat) (len max : Nat) : Nat → Nat → Nat
  | 0, cnt => cnt
  | fuel + 1, cnt =>
    if cnt + 1 ≤ len ∧ cnt < max ∧ src.getD (cnt - 1) 0 = src.getD cnt 0 then
      rle_count_rep_go src len max fuel (cnt + 1)
    else cnt

/-- Embedding of `rle_count_rep` (`src/test_utility.c`): count of repeated leading
characters, inclusive; `len` is the buffer length passed by the caller. -/
def rle_count_rep (src : List Nat) (len max : Nat) : Nat :=
  if len ≠ 0 ∧ max ≠ 0 then rle_count_rep_go src len max max 1 else 0

/-- The while loop of `rle_count_cpy` (`src/test_utility.c`), starting at
`cnt = 0`.  The loop condition caps `cnt` below `max`, so fuel `max`
exhausts exactly when the `cnt < max` test would stop the loop. -/
def rle_count_cpy_go (src : List Nat) (len max : Nat) : Nat → Nat → Nat
  | 0, cnt => cnt
  | fuel + 1, cnt =>
    if cnt + 1 ≤ len ∧ cnt < max ∧ (cnt + 1 = len ∨ src.getD cnt 0 ≠ src.getD (cnt + 1) 0) then
      rle_count_cpy_go src len max fuel (cnt + 1)
    else cnt

/-- Embedding of `rle_count_cpy` (`src/test_utility.c`): count of non-repeated leading
characters. -/
def rle_count_cpy (src : List Nat) (len max : Nat) : Nat :=
  rle_count_cpy_go src len max max 0

/-- The REP-counting loop of `goldbox_compress` (`src/rle_goldbox.h`, line 31):
`while ((rp+cnt+1 < slen) && (src[rp+cnt] == src[rp+cnt+1]) && (cnt < 126)) ++cnt;`
The `cnt < 126` test bounds the loop, so 126 units of fuel are exact. -/
def crepGo (src : List Nat) (rp : Nat) : Nat → Nat → Nat
  | 0, cnt => cnt
  | fuel + 1, cnt =>
    if rp + cnt + 1 < src.length ∧ src.getD (rp + cnt) 0 = src.getD (rp + cnt + 1) 0 ∧ cnt < 126 then
      crepGo src rp fuel (cnt + 1)
    else cnt

/-- Number of same bytes counted at cursor `rp` by `goldbox_compress`. -/
def crep (src : List Nat) (rp : Nat) : Nat := crepGo src rp 126 0

/-- The CPY-counting loop of `goldbox_compress` (`src/rle_goldbox.h`, line 48):
`while ((rp+cnt+1 < slen) && (src[rp+cnt] != src[rp+cnt+1]) && (cnt < 126)) ++cnt;` -/
def ccpyGo (src : List Nat) (rp : Nat) : Nat → Nat → Nat
  | 0, cnt => cnt
  | fuel + 1, cnt =>
    if rp + cnt + 1 < src.length ∧ src.getD (rp + cnt) 0 ≠ src.getD (rp + cnt + 1) 0 ∧ cnt < 126 then
      ccpyGo src rp fuel (cnt + 1)
    else cnt

/-- Number of non-repeating bytes counted at cursor `rp` by `goldbox_compress`. -/
def ccpy (src : List Nat) (rp : Nat) : Nat := ccpyGo src rp 126 0

/-- The main loop of `goldbox_compress` (`src/rle_goldbox.h`), with the
emitted bytes collected into a list (the unbounded-destination behaviour:
every guarded write lands).  A REP token is `~cnt` (that is `255 - cnt`,
since `cnt ≤ 126`) followed by `src[rp]`; a CPY token is `cnt - 1` followed
by the `cnt` literals `src[rp..rp+cnt-1]`.  Each iteration advances `rp` by
at least one, so `src.length` units of fuel suffice. -/
def gcOutGo (src : List Nat) : Nat → Nat → List Nat
  | 0, _ => []
  | fuel + 1, rp =>
    if rp < src.length then
      if 0 < crep src rp ∨ rp + crep src rp + 1 = src.length then
        (255 - crep src rp) :: src.getD rp 0 :: gcOutGo src fuel (rp + crep src rp + 1)
      else
        (ccpy src rp - 1) :: ((List.range (ccpy src rp)).map (fun i => src.getD (rp + i) 0)
          ++ gcOutGo src fuel (rp + ccpy src rp))
    else []

/-- The byte sequence produced by `goldbox_compress` when the destination
can hold the whole output. -/
def goldbox_compress_out (src : List Nat) : List Nat := gcOutGo src src.length 0

/-- The main loop of `goldbox_compress` in length-determination mode
(`dest == NULL`): the loop runs while `rp < slen` and only `wp` is
accumulated. -/
def gcLenGo (src : List Nat) : Nat → Nat → Nat
  | 0, _ => 0
  | fuel + 1, rp =>
    if rp < src.length then
      if 0 < crep src rp ∨ rp + crep src rp + 1 = src.length then
        2 + gcLenGo src fuel (rp + crep src rp + 1)
      else
        (ccpy src rp + 1) + gcLenGo src fuel (rp + ccpy src rp)
    else 0

/-- Embedding of `goldbox_compress(src, slen, NULL, 0)`: the returned byte count in
length-determination mode. -/
def goldbox_compress_len (src : List Nat) : Nat := gcLenGo src src.length 0

/-- Write the bytes `xs` into `d` at consecutive offsets starting at `p`.
`List.set` ignores out-of-range offsets, which matches the capacity guards
of the C write loops (`wp + i < dlen`): once an offset reaches the
capacity, that write and all later ones of the run are dropped. -/
def writeRun (d : List Nat) (p : Nat) : List Nat → List Nat
  | [] => d
  | x :: xs => writeRun (d.set p x) (p + 1) xs

/-- The main loop of `goldbox_compress` with a present destination buffer
`d` (so `dlen = d.length`): the loop also stops as soon as `wp ≥ dlen`,
every write is capacity-guarded, and the pair (final buffer, returned
`wp`) is produced. -/
def gcBGo (src : List Nat) : Nat → Nat → List Nat → Nat → List Nat × Nat
  | 0, _, d, wp => (d, wp)
  | fuel + 1, rp, d, wp =>
    if rp < src.length ∧ wp < d.length then
      if 0 < crep src rp ∨ rp + crep src rp + 1 = src.length then
        -- dest[wp+0] = ~cnt; if (wp + 1 < dlen) dest[wp+1] = src[rp];
        gcBGo src fuel (rp + crep src rp + 1)
          (if wp + 1 < d.length then (d.set wp (255 - crep src rp)).set (wp + 1) (src.getD rp 0)
           else d.set wp (255 - crep src rp))
          (wp + 2)
      else
        -- dest[wp+0] = cnt - 1; for (i < cnt && wp+1+i < dlen) dest[wp+1+i] = src[rp+i];
        gcBGo src fuel (rp + ccpy src rp)
          (writeRun (d.set wp (ccpy src rp - 1)) (wp + 1)
            ((List.range (ccpy src rp)).map (fun i => src.getD (rp + i) 0)))
          (wp + ccpy src rp + 1)
    else (d, wp)

/-- Embedding of `goldbox_compress(src, slen, dest, dlen)` with `dest` present:
returns the final destination contents and the returned byte count. -/
def goldbox_compress_buf (src dest : List Nat) : List Nat × Nat :=
  gcBGo src src.length 0 dest 0

/-- The main loop of `goldbox_decompress` (`src/rle_goldbox.h`) with a
present, ample destination, producing the written bytes.  The control byte
`b` is consumed from the stream head; `b & 0x80` is the `128 ≤ b` test for
byte values, and the REP count `(~b) + 1` is `256 - b`.  The result is
`none` when a payload read would fall outside the source buffer (a REP
control byte with no following byte, or a CPY whose announced literal
count exceeds the remaining input) — the out-of-bounds `src` reads the C
performs on such input.  Every step consumes at least the control byte, so
`length` units of fuel suffice. -/
def gdOutGo : Nat → List Nat → Option (List Nat)
  | _, [] => some []
  | 0, _ :: _ => none
  | fuel + 1, b :: rest =>
    if 128 ≤ b then
      match rest with
      | [] => none
      | v :: rest2 =>
        match gdOutGo fuel rest2 with
        | some out => some (List.replicate (256 - b) v ++ out)
        | none => none
    else
      if b + 1 ≤ rest.length then
        match gdOutGo fuel (rest.drop (b + 1)) with
        | some out => some (rest.take (b + 1) ++ out)
        | none => none
      else none

/-- Embedding of `goldbox_decompress` with an ample destination: the decompressed bytes,
or `none` when the stream ends mid-operation (forcing an out-of-bounds
source read). -/
def goldbox_decompress_out (l : List Nat) : Option (List Nat) := gdOutGo l.length l

/-- The main loop of `goldbox_decompress` in length-determination mode
(`dest == NULL`): no payload bytes are read, the cursor skips over them
(`rest.tail` / `rest.drop cnt`, which are empty when the stream is
truncated) and the run counts are summed into `wp`. -/
def gdLenGo : Nat → List Nat → Nat
  | _, [] => 0
  | 0, _ :: _ => 0
  | fuel + 1, b :: rest =>
    if 128 ≤ b then
      (256 - b) + gdLenGo fuel rest.tail
    else
      (b + 1) + gdLenGo fuel (rest.drop (b + 1))

/-- Embedding of `goldbox_decompress(l, llen, NULL, 0)`: the returned byte count, the
sum of the run counts parsed from the stream. -/
def goldbox_decompress_len (l : List Nat) : Nat := gdLenGo l.length l

/-- The bytes `goldbox_decompress` writes with an ample destination, with
out-of-bounds payload reads modelled as the default byte `0` (`getD`):
the total counterpart of `gdOutGo` used to describe the buffer contents
produced by the bounded-destination mode. -/
def gdContentGo : Nat → List Nat → List Nat
  | _, [] => []
  | 0, _ :: _ => []
  | fuel + 1, b :: rest =>
    if 128 ≤ b then
      List.replicate (256 - b) (rest.getD 0 0) ++ gdContentGo fuel rest.tail
    else
      (List.range (b + 1)).map (fun i => rest.getD i 0) ++ gdContentGo fuel (rest.drop (b + 1))

/-- The main loop of `goldbox_decompress` with a present destination buffer
`d` (`dlen = d.length`): the loop also stops as soon as `wp ≥ dlen`, the
per-byte writes are capacity-guarded (`wp + i < dlen`, matching
`List.set`'s out-of-range behaviour), and (final buffer, returned `wp`)
is produced. -/
def gdBGo : Nat → List Nat → List Nat → Nat → List Nat × Nat
  | _, [], d, wp => (d, wp)
  | 0, _ :: _, d, wp => (d, wp)
  | fuel + 1, b :: rest, d, wp =>
    if wp < d.length then
      if 128 ≤ b then
        gdBGo fuel rest.tail (writeRun d wp (List.replicate (256 - b) (rest.getD 0 0)))
          (wp + (256 - b))
      else
        gdBGo fuel (rest.drop (b + 1))
          (writeRun d wp ((List.range (b + 1)).map (fun i => rest.getD i 0)))
          (wp + (b + 1))
    else (d, wp)

/-- Embedding of `goldbox_decompress(l, llen, dest, dlen)` with `dest` present:
returns the final destination contents and the returned byte count. -/
def goldbox_decompress_buf (l dest : List Nat) : List Nat × Nat :=
  gdBGo l.length l dest 0

/-- Whether the decompressor's cursor lands exactly on the end of the
source stream: the `assert(src == send)` at the end of
`goldbox_decompress`.  `false` exactly on streams that end mid-operation. -/
def gdConsumedGo : Nat → List Nat → Bool
  | _, [] => true
  | 0, _ :: _ => false
  | fuel + 1, b :: rest =>
    if 128 ≤ b then
      match rest with
      | [] => false
      | _ :: rest2 => gdConsumedGo fuel rest2
    else
      if b + 1 ≤ rest.length then gdConsumedGo fuel (rest.drop (b + 1))
      else false

/-- The `assert(src == send)` contract of `goldbox_decompress`: the stream
parses into complete operations with no bytes left over. -/
def goldbox_decompress_consumed (l : List Nat) : Bool := gdConsumedGo l.length l

/-- The bytes `goldbox_decompress` writes given an ample destination, with
any out-of-bounds payload reads replaced by the default byte 0. -/
def goldbox_decompress_content (l : List Nat) : List Nat := gdContentGo l.length l

/-! ## Theorems -/

set_option maxRecDepth 4000

lemma range256_chunks : List.range 256 =
    List.range 64 ++ ((List.range 64).map (64 + ·) ++
      ((List.range 64).map (128 + ·) ++ (List.range 64).map (192 + ·))) := by
  decide

lemma rle8_minmax_goldbox_eq :
    rle8_minmax rle8_decode_goldbox = ((1, 126), (1, 127), (cINT_MAX, cINT_MIN)) := by
  rw [rle8_minmax, range256_chunks, List.foldl_append, List.foldl_append, List.foldl_append]
  have c1 : (List.range 64).foldl (rle8_minmax_step rle8_decode_goldbox)
      ((cINT_MAX, cINT_MIN), (cINT_MAX, cINT_MIN), (cINT_MAX, cINT_MIN))
      = ((1, 64), (cINT_MAX, cINT_MIN), (cINT_MAX, cINT_MIN)) := by decide
  rw [c1]
  have c2 : ((List.range 64).map (64 + ·)).foldl (rle8_minmax_step rle8_decode_goldbox)
      ((1, 64), (cINT_MAX, cINT_MIN), (cINT_MAX, cINT_MIN))
      = ((1, 126), (cINT_MAX, cINT_MIN), (cINT_MAX, cINT_MIN)) := by decide
  rw [c2]
  have c3 : ((List.range 64).map (128 + ·)).foldl (rle8_minmax_step rle8_decode_goldbox)
      ((1, 126), (cINT_MAX, cINT_MIN), (cINT_MAX, cINT_MIN))
      = ((1, 126), (65, 127), (cINT_MAX, cINT_MIN)) := by decide
  rw [c3]
  decide

lemma rle8_minmax_packbits_eq :
    rle8_minmax rle8_decode_packbits = ((1, 128), (2, 128), (cINT_MAX, cINT_MIN)) := by
  rw [rle8_minmax, range256_chunks, List.foldl_append, List.foldl_append, List.foldl_append]
  have c1 : (List.range 64).foldl (rle8_minmax_step rle8_decode_packbits)
      ((cINT_MAX, cINT_MIN), (cINT_MAX, cINT_MIN), (cINT_MAX, cINT_MIN))
      = ((1, 64), (cINT_MAX, cINT_MIN), (cINT_MAX, cINT_MIN)) := by decide
  rw [c1]
  have c2 : ((List.range 64).map (64 + ·)).foldl (rle8_minmax_step rle8_decode_packbits)
      ((1, 64), (cINT_MAX, cINT_MIN), (cINT_MAX, cINT_MIN))
      = ((1, 128), (cINT_MAX, cINT_MIN), (cINT_MAX, cINT_MIN)) := by decide
  rw [c2]
  have c3 : ((List.range 64).map (128 + ·)).foldl (rle8_minmax_step rle8_decode_packbits)
      ((1, 128), (cINT_MAX, cINT_MIN), (cINT_MAX, cINT_MIN))
      = ((1, 128), (66, 128), (cINT_MAX, cINT_MIN)) := by decide
  rw [c3]
  decide

lemma rle8_minmax_pcx_eq :
    rle8_minmax rle8_decode_pcx = ((cINT_MAX, cINT_MIN), (0, 63), (0, 191)) := by
  rw [rle8_minmax, range256_chunks, List.foldl_append, List.foldl_append, List.foldl_append]
  have c1 : (List.range 64).foldl (rle8_minmax_step rle8_decode_pcx)
      ((cINT_MAX, cINT_MIN), (cINT_MAX, cINT_MIN), (cINT_MAX, cINT_MIN))
      = ((cINT_MAX, cINT_MIN), (cINT_MAX, cINT_MIN), (0, 63)) := by decide
  rw [c1]
  have c2 : ((List.range 64).map (64 + ·)).foldl (rle8_minmax_step rle8_decode_pcx)
      ((cINT_MAX, cINT_MIN), (cINT_MAX, cINT_MIN), (0, 63))
      = ((cINT_MAX, cINT_MIN), (cINT_MAX, cINT_MIN), (0, 127)) := by decide
  rw [c2]
  have c3 : ((List.range 64).map (128 + ·)).foldl (rle8_minmax_step rle8_decode_pcx)
      ((cINT_MAX, cINT_MIN), (cINT_MAX, cINT_MIN), (0, 127))
      = ((cINT_MAX, cINT_MIN), (cINT_MAX, cINT_MIN), (0, 191)) := by decide
  rw [c3]
  decide

/-- C8: the table generator's range discovery over the 256-entry decode
scan yields exactly the documented ranges — goldbox Copy (1, 126) and
Repeat (1, 127); packbits Copy (1, 128) and Repeat (2, 128); pcx Repeat
(0, 63) — and for goldbox exactly the bytes 0x7E, 0x7F, 0x80 decode to
Invalid while every byte ≥ 0x81 decodes to Repeat with count equal to the
two's-complement negation of the byte. -/
theorem c8_range_discovery :
    rle8_minmax rle8_decode_goldbox = ((1, 126), (1, 127), (cINT_MAX, cINT_MIN)) ∧
    rle8_minmax rle8_decode_packbits = ((1, 128), (2, 128), (cINT_MAX, cINT_MIN)) ∧
    (rle8_minmax rle8_decode_pcx).2.1 = (0, 63) ∧
    (∀ b < 256, ((rle8_decode_goldbox b).op = RLE_OP.INVALID ↔ (b = 0x7e ∨ b = 0x7f ∨ b = 0x80))) ∧
    (∀ b < 256, 0x81 ≤ b → rle8_decode_goldbox b = ⟨RLE_OP.REP, (256 - b) % 256⟩) := by
  refine ⟨rle8_minmax_goldbox_eq, rle8_minmax_packbits_eq, ?_, ?_, ?_⟩
  · rw [rle8_minmax_pcx_eq]
  · decide
  · decide

/-- Witness for C8 at the concrete byte 0x90. -/
theorem c8_range_discovery_witness :
    (0x90 : Nat) < 256 ∧ (0x81 : Nat) ≤ 0x90 ∧
      rle8_decode_goldbox 0x90 = ⟨RLE_OP.REP, (256 - 0x90) % 256⟩ :=
  ⟨by decide, by decide, c8_range_discovery.2.2.2.2 0x90 (by decide) (by decide)⟩

/-- C1 counterexample: for the packbits rule set at the control byte
0x80, `rle8_decode_packbits` yields a NoOp (not Invalid), but
`rle8_encode_packbits` of that operation leaves `res.op` at
`RLE_OP_INVALID` (the C only assigns `res.cnt = 0x80` in the NOP branch),
so re-encoding does not yield a result with `op != RLE_OP_INVALID`. -/
theorem c1_control_byte_consistency_cex :
    (rle8_decode_packbits 0x80).op ≠ RLE_OP.INVALID ∧
    (rle8_encode_packbits (rle8_decode_packbits 0x80)).op = RLE_OP.INVALID ∧
    (rle8_encode_packbits (rle8_decode_packbits 0x80)).cnt = 0x80 := by
  decide

/-- C1 as amended: for goldbox and pcx, every byte whose decoding is not
Invalid re-encodes to a non-Invalid result with `cnt` equal to the byte;
for packbits the re-encoded `cnt` always equals the byte, and the
re-encoded `op` is non-Invalid for every such byte except 0x80, where the
decoded NoOp re-encodes with `cnt = 0x80` but `op` left at Invalid. -/
theorem c1_control_byte_consistency (b : Nat) (hb : b < 256) :
    ((rle8_decode_goldbox b).op ≠ RLE_OP.INVALID →
      (rle8_encode_goldbox (rle8_decode_goldbox b)).op ≠ RLE_OP.INVALID ∧
      (rle8_encode_goldbox (rle8_decode_goldbox b)).cnt = b) ∧
    ((rle8_decode_pcx b).op ≠ RLE_OP.INVALID →
      (rle8_encode_pcx (rle8_decode_pcx b)).op ≠ RLE_OP.INVALID ∧
      (rle8_encode_pcx (rle8_decode_pcx b)).cnt = b) ∧
    ((rle8_decode_packbits b).op ≠ RLE_OP.INVALID →
      (rle8_encode_packbits (rle8_decode_packbits b)).cnt = b ∧
      (b ≠ 0x80 → (rle8_encode_packbits (rle8_decode_packbits b)).op ≠ RLE_OP.INVALID)) := by
  revert b
  decide

/-- Witness for C1 at the concrete byte 0x41. -/
theorem c1_control_byte_consistency_witness :
    (0x41 : Nat) < 256 ∧ (rle8_decode_goldbox 0x41).op ≠ RLE_OP.INVALID ∧
      (rle8_encode_goldbox (rle8_decode_goldbox 0x41)).cnt = 0x41 :=
  ⟨by decide, by decide, ((c1_control_byte_consistency 0x41 (by decide)).1 (by decide)).2⟩

lemma getD_replicate (v : Nat) {i n : Nat} (h : i < n) :
    (List.replicate n v).getD i 0 = v := by
  rw [List.getD_eq_getElem _ _ (by simpa using h)]
  simp

lemma rle_count_rep_len_zero (src : List Nat) (max : Nat) : rle_count_rep src 0 max = 0 := by
  simp [rle_count_rep]

lemma rle_count_rep_len_one (src : List Nat) (max : Nat) (h : 1 ≤ max) :
    rle_count_rep src 1 max = 1 := by
  obtain ⟨m, rfl⟩ : ∃ m, max = m + 1 := ⟨max - 1, by omega⟩
  simp [rle_count_rep, rle_count_rep_go]

lemma rle_count_rep_go_replicate (v n max : Nat) :
    ∀ fuel cnt, 1 ≤ cnt → cnt ≤ n → n ≤ max → n - cnt ≤ fuel →
      rle_count_rep_go (List.replicate n v) n max fuel cnt = n := by
  intro fuel
  induction fuel with
  | zero =>
    intro cnt h1 h2 _ h4
    have : cnt = n := by omega
    simp [rle_count_rep_go, this]
  | succ fuel ih =>
    intro cnt h1 h2 h3 h4
    by_cases hc : cnt = n
    · rw [rle_count_rep_go, if_neg]
      · exact hc
      · rintro ⟨hl, -, -⟩; omega
    · rw [rle_count_rep_go, if_pos, ih (cnt + 1) (by omega) (by omega) h3 (by omega)]
      refine ⟨by omega, by omega, ?_⟩
      rw [getD_replicate v (by omega), getD_replicate v (by omega)]

lemma rle_count_rep_replicate (v n max : Nat) (h : n ≤ max) :
    rle_count_rep (List.replicate n v) n max = n := by
  match n with
  | 0 => exact rle_count_rep_len_zero _ _
  | n + 1 =>
    rw [rle_count_rep, if_pos ⟨by omega, by omega⟩]
    exact rle_count_rep_go_replicate v (n + 1) max max 1 (by omega) (by omega) h (by omega)

lemma rle_count_cpy_len_one (src : List Nat) (max : Nat) (h : 1 ≤ max) :
    rle_count_cpy src 1 max = 1 := by
  obtain ⟨m, rfl⟩ : ∃ m, max = m + 1 := ⟨max - 1, by omega⟩
  match m with
  | 0 => simp [rle_count_cpy, rle_count_cpy_go]
  | m + 1 => simp [rle_count_cpy, rle_count_cpy_go]

lemma rle_count_cpy_first_two_eq (src : List Nat) (len max : Nat) (hlen : 2 ≤ len)
    (h : src.getD 0 0 = src.getD 1 0) : rle_count_cpy src len max = 0 := by
  match max with
  | 0 => simp [rle_count_cpy, rle_count_cpy_go]
  | m + 1 =>
    rw [rle_count_cpy, rle_count_cpy_go, if_neg]
    rintro ⟨-, -, h3 | h3⟩
    · omega
    · exact h3 h

lemma rle_count_cpy_go_alternating (src : List Nat) (len max : Nat)
    (halt : ∀ i, i + 1 < len → src.getD i 0 ≠ src.getD (i + 1) 0) :
    ∀ fuel cnt, cnt ≤ min len max → min len max - cnt ≤ fuel →
      rle_count_cpy_go src len max fuel cnt = min len max := by
  intro fuel
  induction fuel with
  | zero =>
    intro cnt h1 h2
    have : cnt = min len max := by omega
    simp [rle_count_cpy_go, this]
  | succ fuel ih =>
    intro cnt h1 h2
    by_cases hc : cnt = min len max
    · rw [rle_count_cpy_go, if_neg]
      · exact hc
      · rintro ⟨hl, hm, -⟩; omega
    · rw [rle_count_cpy_go, if_pos, ih (cnt + 1) (by omega) (by omega)]
      refine ⟨by omega, by omega, ?_⟩
      by_cases he : cnt + 1 = len
      · exact Or.inl he
      · exact Or.inr (halt cnt (by omega))

lemma rle_count_cpy_alternating (src : List Nat) (len max : Nat)
    (halt : ∀ i, i + 1 < len → src.getD i 0 ≠ src.getD (i + 1) 0) :
    rle_count_cpy src len max = min len max := by
  exact rle_count_cpy_go_alternating src len max halt max 0 (by omega) (by omega)

lemma rle_count_cpy_AB (max : Nat) (h : 2 ≤ max) : rle_count_cpy [65, 66] 2 max = 2 := by
  have halt : ∀ i, i + 1 < 2 → ([65, 66] : List Nat).getD i 0 ≠ [65, 66].getD (i + 1) 0 := by
    intro i hi
    have : i = 0 := by omega
    subst this
    decide
  rw [rle_count_cpy_alternating [65, 66] 2 max halt]
  omega

lemma rle_count_cpy_ABB (max : Nat) (h : 1 ≤ max) : rle_count_cpy [65, 66, 66] 3 max = 1 := by
  obtain ⟨m, rfl⟩ : ∃ m, max = m + 1 := ⟨max - 1, by omega⟩
  match m with
  | 0 => simp [rle_count_cpy, rle_count_cpy_go]
  | m + 1 => simp [rle_count_cpy, rle_count_cpy_go]

/-- C9 counterexample: with `max = 0`, `rle_count_rep` on a length-1 input
returns 0, not 1, and with `max = 1`, `rle_count_cpy` on "AB" returns 1,
not 2 — the claim's boundary values hold only when `max` is large enough. -/
theorem c9_count_helpers_cex :
    (rle_count_rep [65] 1 0 = 0 ∧ rle_count_rep [65] 1 0 ≠ 1) ∧
    (rle_count_cpy [65, 66] 2 1 = 1 ∧ rle_count_cpy [65, 66] 2 1 ≠ 2) := by
  decide

/-- C9 as amended: the stated boundary behaviours of the run-counting
helpers, with the bound `max` constrained to be large enough where the
loop cap would otherwise cut the count short: `rle_count_rep` returns 0 on
length 0 (any `max`), 1 on length 1 when `max ≥ 1`, and `n` on an
all-equal buffer of length `n` when `max ≥ n`; `rle_count_cpy` returns 1
on a length-1 input when `max ≥ 1`, 0 whenever the first two bytes are
equal and `len ≥ 2` (any `max`), 2 on "AB" when `max ≥ 2`, 1 on "ABB"
when `max ≥ 1`, and `min len max` on a strictly-alternating buffer. -/
theorem c9_count_helpers (src : List Nat) (v n len max : Nat) :
    (rle_count_rep src 0 max = 0) ∧
    (1 ≤ max → rle_count_rep src 1 max = 1) ∧
    (n ≤ max → rle_count_rep (List.replicate n v) n max = n) ∧
    (1 ≤ max → rle_count_cpy src 1 max = 1) ∧
    (2 ≤ len → src.getD 0 0 = src.getD 1 0 → rle_count_cpy src len max = 0) ∧
    (2 ≤ max → rle_count_cpy [65, 66] 2 max = 2) ∧
    (1 ≤ max → rle_count_cpy [65, 66, 66] 3 max = 1) ∧
    ((∀ i, i + 1 < len → src.getD i 0 ≠ src.getD (i + 1) 0) →
      rle_count_cpy src len max = min len max) :=
  ⟨rle_count_rep_len_zero src max,
   rle_count_rep_len_one src max,
   rle_count_rep_replicate v n max,
   rle_count_cpy_len_one src max,
   fun h1 h2 => rle_count_cpy_first_two_eq src len max h1 h2,
   rle_count_cpy_AB max,
   rle_count_cpy_ABB max,
   rle_count_cpy_alternating src len max⟩

/-- Witness for C9: the length-1 and "AB" cases at `max = 128`. -/
theorem c9_count_helpers_witness :
    (1 ≤ 128 ∧ rle_count_rep [65] 1 128 = 1) ∧ (2 ≤ 128 ∧ rle_count_cpy [65, 66] 2 128 = 2) :=
  ⟨⟨by decide, (c9_count_helpers [65] 0 0 1 128).2.1 (by decide)⟩,
   ⟨by decide, (c9_count_helpers [65, 66] 0 0 2 128).2.2.2.2.2.1 (by decide)⟩⟩

/-! ### Properties of the goldbox run-counting loops -/

lemma crepGo_le (src : List Nat) (rp : Nat) :
    ∀ fuel cnt, cnt ≤ 126 → crepGo src rp fuel cnt ≤ 126 := by
  intro fuel
  induction fuel with
  | zero => intro cnt h; simpa [crepGo] using h
  | succ fuel ih =>
    intro cnt h
    rw [crepGo]
    split
    · next hc => exact ih (cnt + 1) (by omega)
    · exact h

lemma crep_le (src : List Nat) (rp : Nat) : crep src rp ≤ 126 :=
  crepGo_le src rp 126 0 (by omega)

lemma crepGo_ge (src : List Nat) (rp : Nat) :
    ∀ fuel cnt, cnt ≤ crepGo src rp fuel cnt := by
  intro fuel
  induction fuel with
  | zero => intro cnt; simp [crepGo]
  | succ fuel ih =>
    intro cnt
    rw [crepGo]
    split
    · exact Nat.le_trans (by omega) (ih (cnt + 1))
    · exact Nat.le_refl cnt

lemma crepGo_pairs (src : List Nat) (rp : Nat) :
    ∀ fuel cnt i, cnt ≤ i → i < crepGo src rp fuel cnt →
      rp + i + 1 < src.length ∧ src.getD (rp + i) 0 = src.getD (rp + i + 1) 0 := by
  intro fuel
  induction fuel with
  | zero => intro cnt i h1 h2; rw [crepGo] at h2; omega
  | succ fuel ih =>
    intro cnt i h1 h2
    rw [crepGo] at h2
    split at h2
    · next hc =>
      rcases Nat.eq_or_lt_of_le h1 with heq | hlt
      · exact heq ▸ ⟨hc.1, hc.2.1⟩
      · exact ih (cnt + 1) i hlt h2
    · omega

lemma crep_pairs (src : List Nat) (rp : Nat) {i : Nat} (h : i < crep src rp) :
    rp + i + 1 < src.length ∧ src.getD (rp + i) 0 = src.getD (rp + i + 1) 0 :=
  crepGo_pairs src rp 126 0 i (by omega) h

/-- All bytes within the counted repeat run equal the run's first byte. -/
lemma crep_all_eq (src : List Nat) (rp : Nat) :
    ∀ i, i ≤ crep src rp → src.getD (rp + i) 0 = src.getD rp 0 := by
  intro i
  induction i with
  | zero => intro _; rfl
  | succ i ih =>
    intro h
    have hp := crep_pairs src rp (i := i) (by omega)
    rw [show rp + (i + 1) = rp + i + 1 from rfl, ← hp.2]
    exact ih (by omega)

lemma crep_zero_ne (src : List Nat) (rp : Nat) (h : crep src rp = 0)
    (hlt : rp + 1 < src.length) : src.getD rp 0 ≠ src.getD (rp + 1) 0 := by
  intro heq
  have hpos : 0 < crep src rp := by
    have h126 : crep src rp = crepGo src rp (125 + 1) 0 := rfl
    rw [h126, crepGo, if_pos ⟨by simpa using hlt, by simpa using heq, by omega⟩]
    exact Nat.lt_of_lt_of_le (by omega) (crepGo_ge src rp 125 (0 + 1))
  omega

lemma ccpyGo_le (src : List Nat) (rp : Nat) :
    ∀ fuel cnt, cnt ≤ 126 → ccpyGo src rp fuel cnt ≤ 126 := by
  intro fuel
  induction fuel with
  | zero => intro cnt h; simpa [ccpyGo] using h
  | succ fuel ih =>
    intro cnt h
    rw [ccpyGo]
    split
    · next hc => exact ih (cnt + 1) (by omega)
    · exact h

lemma ccpy_le (src : List Nat) (rp : Nat) : ccpy src rp ≤ 126 :=
  ccpyGo_le src rp 126 0 (by omega)

lemma ccpyGo_ge (src : List Nat) (rp : Nat) :
    ∀ fuel cnt, cnt ≤ ccpyGo src rp fuel cnt := by
  intro fuel
  induction fuel with
  | zero => intro cnt; simp [ccpyGo]
  | succ fuel ih =>
    intro cnt
    rw [ccpyGo]
    split
    · exact Nat.le_trans (by omega) (ih (cnt + 1))
    · exact Nat.le_refl cnt

lemma ccpyGo_pairs (src : List Nat) (rp : Nat) :
    ∀ fuel cnt i, cnt ≤ i → i < ccpyGo src rp fuel cnt →
      rp + i + 1 < src.length ∧ src.getD (rp + i) 0 ≠ src.getD (rp + i + 1) 0 := by
  intro fuel
  induction fuel with
  | zero => intro cnt i h1 h2; rw [ccpyGo] at h2; omega
  | succ fuel ih =>
    intro cnt i h1 h2
    rw [ccpyGo] at h2
    split at h2
    · next hc =>
      rcases Nat.eq_or_lt_of_le h1 with heq | hlt
      · exact heq ▸ ⟨hc.1, hc.2.1⟩
      · exact ih (cnt + 1) i hlt h2
    · omega

lemma ccpy_pos (src : List Nat) (rp : Nat) (hlt : rp + 1 < src.length)
    (hne : src.getD rp 0 ≠ src.getD (rp + 1) 0) : 0 < ccpy src rp := by
  have h126 : ccpy src rp = ccpyGo src rp (125 + 1) 0 := rfl
  rw [h126, ccpyGo, if_pos ⟨by simpa using hlt, by simpa using hne, by omega⟩]
  exact Nat.lt_of_lt_of_le (by omega) (ccpyGo_ge src rp 125 (0 + 1))

/-- The copy-counting loop never consumes the source's final byte: it stops
one short of the end. -/
lemma ccpy_lt_len (src : List Nat) (rp : Nat) (h : 0 < ccpy src rp) :
    rp + ccpy src rp < src.length := by
  have hc : ccpyGo src rp 126 0 = ccpy src rp := rfl
  have hp := ccpyGo_pairs src rp 126 0 (ccpy src rp - 1) (by omega) (by rw [hc]; omega)
  omega

/-! ### Buffer-write helpers -/

lemma writeRun_length (xs : List Nat) : ∀ (d : List Nat) (p : Nat),
    (writeRun d p xs).length = d.length := by
  induction xs with
  | nil => intro d p; rfl
  | cons x xs ih => intro d p; rw [writeRun, ih, List.length_set]

lemma writeRun_append (xs ys : List Nat) : ∀ (d : List Nat) (p : Nat),
    writeRun d p (xs ++ ys) = writeRun (writeRun d p xs) (p + xs.length) ys := by
  induction xs with
  | nil => intro d p; rfl
  | cons x xs ih =>
    intro d p
    show writeRun (d.set p x) (p + 1) (xs ++ ys) = _
    rw [ih, writeRun]
    congr 1
    simp only [List.length_cons]
    omega

lemma take_set_succ : ∀ (d : List Nat) (p x : Nat), p < d.length →
    (d.set p x).take (p + 1) = d.take p ++ [x] := by
  intro d
  induction d with
  | nil => intro p x h; simp at h
  | cons y t ih =>
    intro p x h
    match p with
    | 0 => simp
    | p + 1 =>
      rw [List.set_cons_succ, List.take_succ_cons, ih p x (by simpa using h),
        List.take_succ_cons]
      simp

lemma drop_set_ge (d : List Nat) (p m x : Nat) (h : p < m) :
    (d.set p x).drop m = d.drop m := by
  rw [List.drop_set, if_pos h]

/-- Writing `xs` at offsets `p, p+1, ...` into a buffer large enough to
hold it splices `xs` into the buffer. -/
lemma writeRun_splice : ∀ (xs d : List Nat) (p : Nat), p + xs.length ≤ d.length →
    writeRun d p xs = d.take p ++ xs ++ d.drop (p + xs.length) := by
  intro xs
  induction xs with
  | nil =>
    intro d p h
    show d = d.take p ++ [] ++ d.drop (p + 0)
    simp [List.take_append_drop]
  | cons x xs ih =>
    intro d p h
    have hp : p < d.length := by simp at h; omega
    show writeRun (d.set p x) (p + 1) xs = _
    rw [ih (d.set p x) (p + 1) (by rw [List.length_set]; simp at h ⊢; omega)]
    rw [take_set_succ d p x hp, drop_set_ge d p (p + 1 + xs.length) x (by omega)]
    have hlen : p + 1 + xs.length = p + (x :: xs).length := by simp; omega
    rw [hlen]
    simp

/-- Reading `k` consecutive bytes via `getD` starting at `rp` is the slice
`(l.drop rp).take k` when it lies inside the buffer. -/
lemma map_range_getD_eq_take (l : List Nat) (rp k : Nat) (h : rp + k ≤ l.length) :
    (List.range k).map (fun i => l.getD (rp + i) 0) = (l.drop rp).take k := by
  apply List.ext_getElem
  · simp
    omega
  · intro n h1 h2
    have hn : n < k := by simpa using h1
    rw [List.getElem_map, List.getElem_range, List.getElem_take, List.getElem_drop]
    exact List.getD_eq_getElem l 0 (by omega)

/-- Lemma `map_range_getD_eq_take` specialised to a zero offset. -/
lemma map_range_getD_eq_take_zero (l : List Nat) (k : Nat) (h : k ≤ l.length) :
    (List.range k).map (fun i => l.getD i 0) = l.take k := by
  have hm := map_range_getD_eq_take l 0 k (by omega)
  simpa using hm

/-- A run of bytes that are pairwise equal to the first byte is a
`replicate` slice. -/
lemma take_drop_eq_replicate (l : List Nat) (rp c : Nat) (hlt : rp + c < l.length)
    (hall : ∀ i, i ≤ c → l.getD (rp + i) 0 = l.getD rp 0) :
    (l.drop rp).take (c + 1) = List.replicate (c + 1) (l.getD rp 0) := by
  apply List.ext_getElem
  · simp
    omega
  · intro n h1 h2
    have hn : n < c + 1 := by simpa using h2
    rw [List.getElem_replicate, List.getElem_take, List.getElem_drop]
    rw [← List.getD_eq_getElem l 0 (by omega)]
    exact hall n (by omega)

/-! ### Structure of the goldbox compressor's emission and its inverse -/

/-- In the REP branch of `goldbox_compress` the emitted run lies inside the
source. -/
lemma rep_branch_le (src : List Nat) (rp : Nat) (_h1 : rp < src.length)
    (h2 : 0 < crep src rp ∨ rp + crep src rp + 1 = src.length) :
    rp + crep src rp + 1 ≤ src.length := by
  rcases h2 with h2 | h2
  · have := crep_pairs src rp (i := crep src rp - 1) (by omega)
    omega
  · omega

/-- In the CPY branch of `goldbox_compress` the copy count is positive and
stays strictly inside the source. -/
lemma cpy_branch_facts (src : List Nat) (rp : Nat) (h1 : rp < src.length)
    (h2 : ¬(0 < crep src rp ∨ rp + crep src rp + 1 = src.length)) :
    0 < ccpy src rp ∧ rp + ccpy src rp < src.length := by
  push_neg at h2
  have hcrep0 : crep src rp = 0 := by omega
  have hrp1 : rp + 1 < src.length := by omega
  have hne := crep_zero_ne src rp hcrep0 hrp1
  have hk := ccpy_pos src rp hrp1 hne
  exact ⟨hk, ccpy_lt_len src rp hk⟩

/-- The length-determination pass computes exactly the length of the
emitted byte sequence. -/
lemma gcLenGo_eq_length (src : List Nat) :
    ∀ fuel rp, gcLenGo src fuel rp = (gcOutGo src fuel rp).length := by
  intro fuel
  induction fuel with
  | zero => intro rp; rfl
  | succ fuel ih =>
    intro rp
    rw [gcLenGo, gcOutGo]
    by_cases h1 : rp < src.length
    · rw [if_pos h1, if_pos h1]
      by_cases h2 : 0 < crep src rp ∨ rp + crep src rp + 1 = src.length
      · rw [if_pos h2, if_pos h2]
        simp only [List.length_cons, ih]
        omega
      · rw [if_neg h2, if_neg h2]
        simp only [List.length_cons, List.length_append, List.length_map, List.length_range, ih]
        omega
    · rw [if_neg h1, if_neg h1]
      rfl

lemma gdOutGo_nil : ∀ fuel, gdOutGo fuel [] = some [] := by
  intro fuel
  cases fuel <;> rfl

/-- Unfolding of `gdOutGo` on a CPY control byte, for an arbitrary (not syntactically
destructured) tail. -/
lemma gdOutGo_cons_cpy (fuel b : Nat) (rest : List Nat) (hb : ¬ 128 ≤ b) :
    gdOutGo (fuel + 1) (b :: rest) =
      if b + 1 ≤ rest.length then
        match gdOutGo fuel (rest.drop (b + 1)) with
        | some out => some (rest.take (b + 1) ++ out)
        | none => none
      else none := by
  cases rest with
  | nil => rw [gdOutGo, if_neg hb]
  | cons v rest2 => rw [gdOutGo, if_neg hb]

/-- Round trip at the level of the fueled loops: decompressing the bytes
the compressor emits from cursor `rp` recovers `src.drop rp`. -/
lemma gd_of_gcOut (src : List Nat) : ∀ cfuel rp, src.length - rp ≤ cfuel →
    ∀ dfuel, (gcOutGo src cfuel rp).length ≤ dfuel →
      gdOutGo dfuel (gcOutGo src cfuel rp) = some (src.drop rp) := by
  intro cfuel
  induction cfuel with
  | zero =>
    intro rp h dfuel _
    have hrp : src.length ≤ rp := by omega
    show gdOutGo dfuel [] = some (src.drop rp)
    rw [gdOutGo_nil, List.drop_eq_nil_of_le hrp]
  | succ cfuel ih =>
    intro rp hfuel dfuel hd
    by_cases h1 : rp < src.length
    · rw [gcOutGo, if_pos h1] at hd ⊢
      by_cases h2 : 0 < crep src rp ∨ rp + crep src rp + 1 = src.length
      · rw [if_pos h2] at hd ⊢
        have hle := rep_branch_le src rp h1 h2
        have hcle := crep_le src rp
        match dfuel with
        | 0 => simp at hd
        | df + 1 =>
          have hrec := ih (rp + crep src rp + 1) (by omega) df
            (by simp only [List.length_cons] at hd; omega)
          rw [gdOutGo, if_pos (show 128 ≤ 255 - crep src rp by omega)]
          simp only [hrec]
          have hcnt : 256 - (255 - crep src rp) = crep src rp + 1 := by omega
          rw [hcnt]
          have hall : ∀ i, i ≤ crep src rp → src.getD (rp + i) 0 = src.getD rp 0 :=
            crep_all_eq src rp
          have hrepl := take_drop_eq_replicate src rp (crep src rp) (by omega) hall
          have hsplit := List.take_append_drop (crep src rp + 1) (src.drop rp)
          rw [hrepl, List.drop_drop] at hsplit
          rw [show rp + crep src rp + 1 = rp + (crep src rp + 1) from rfl, hsplit]
      · rw [if_neg h2] at hd ⊢
        obtain ⟨hk, hklen⟩ := cpy_branch_facts src rp h1 h2
        have hk126 := ccpy_le src rp
        match dfuel with
        | 0 => simp at hd
        | df + 1 =>
          have hlenlits : ((List.range (ccpy src rp)).map (fun i => src.getD (rp + i) 0)).length
              = ccpy src rp := by
            rw [List.length_map, List.length_range]
          have hrec := ih (rp + ccpy src rp) (by omega) df
            (by simp only [List.length_cons, List.length_append, hlenlits] at hd; omega)
          rw [gdOutGo_cons_cpy df (ccpy src rp - 1) _ (by omega)]
          have hksub : ccpy src rp - 1 + 1 = ccpy src rp := by omega
          rw [hksub, if_pos (by rw [List.length_append, hlenlits]; omega)]
          rw [List.drop_left' hlenlits, hrec, List.take_left' hlenlits]
          rw [map_range_getD_eq_take src rp (ccpy src rp) (by omega)]
          have hsplit := List.take_append_drop (ccpy src rp) (src.drop rp)
          rw [List.drop_drop] at hsplit
          show some (List.take (ccpy src rp) (src.drop rp) ++ List.drop (rp + ccpy src rp) src)
            = some (src.drop rp)
          rw [hsplit]
    · rw [gcOutGo, if_neg h1]
      rw [gdOutGo_nil, List.drop_eq_nil_of_le (by omega)]

lemma gdLenGo_nil : ∀ fuel, gdLenGo fuel [] = 0 := by
  intro fuel
  cases fuel <;> rfl

lemma gdConsumedGo_nil : ∀ fuel, gdConsumedGo fuel [] = true := by
  intro fuel
  cases fuel <;> rfl

lemma gdContentGo_nil : ∀ fuel, gdContentGo fuel [] = [] := by
  intro fuel
  cases fuel <;> rfl

/-- When decompression succeeds, the length-determination pass returns the
decompressed length. -/
lemma gdLenGo_of_some : ∀ fuel l out, gdOutGo fuel l = some out → gdLenGo fuel l = out.length := by
  intro fuel
  induction fuel with
  | zero =>
    intro l out h
    cases l with
    | nil =>
      rw [gdOutGo_nil] at h
      simp only [Option.some.injEq] at h
      rw [gdLenGo_nil, ← h]
      rfl
    | cons b rest => exact absurd h (by rw [gdOutGo]; simp)
  | succ fuel ih =>
    intro l out h
    cases l with
    | nil =>
      rw [gdOutGo_nil] at h
      simp only [Option.some.injEq] at h
      rw [gdLenGo_nil, ← h]
      rfl
    | cons b rest =>
      by_cases hb : 128 ≤ b
      · cases rest with
        | nil => rw [gdOutGo, if_pos hb] at h; exact absurd h (by simp)
        | cons v rest2 =>
          rw [gdOutGo, if_pos hb] at h
          cases hrec : gdOutGo fuel rest2 with
          | none => rw [hrec] at h; exact absurd h (by simp)
          | some out2 =>
            rw [hrec] at h
            simp only [Option.some.injEq] at h
            rw [gdLenGo, if_pos hb, List.tail_cons, ih rest2 out2 hrec, ← h]
            simp
      · rw [gdOutGo_cons_cpy fuel b rest hb] at h
        by_cases hlen : b + 1 ≤ rest.length
        · rw [if_pos hlen] at h
          cases hrec : gdOutGo fuel (rest.drop (b + 1)) with
          | none => rw [hrec] at h; exact absurd h (by simp)
          | some out2 =>
            rw [hrec] at h
            simp only [Option.some.injEq] at h
            rw [gdLenGo, if_neg hb, ih _ out2 hrec, ← h]
            simp only [List.length_append, List.length_take]
            omega
        · rw [if_neg hlen] at h; exact absurd h (by simp)

/-- When decompression succeeds, the junk-default content equals the real
decompressed content. -/
lemma gdContentGo_of_some : ∀ fuel l out, gdOutGo fuel l = some out → gdContentGo fuel l = out := by
  intro fuel
  induction fuel with
  | zero =>
    intro l out h
    cases l with
    | nil =>
      rw [gdOutGo_nil] at h
      simp only [Option.some.injEq] at h
      rw [gdContentGo_nil, ← h]
    | cons b rest => exact absurd h (by rw [gdOutGo]; simp)
  | succ fuel ih =>
    intro l out h
    cases l with
    | nil =>
      rw [gdOutGo_nil] at h
      simp only [Option.some.injEq] at h
      rw [gdContentGo_nil, ← h]
    | cons b rest =>
      by_cases hb : 128 ≤ b
      · cases rest with
        | nil => rw [gdOutGo, if_pos hb] at h; exact absurd h (by simp)
        | cons v rest2 =>
          rw [gdOutGo, if_pos hb] at h
          cases hrec : gdOutGo fuel rest2 with
          | none => rw [hrec] at h; exact absurd h (by simp)
          | some out2 =>
            rw [hrec] at h
            simp only [Option.some.injEq] at h
            rw [gdContentGo, if_pos hb, List.tail_cons, ih rest2 out2 hrec, ← h]
            simp
      · rw [gdOutGo_cons_cpy fuel b rest hb] at h
        by_cases hlen : b + 1 ≤ rest.length
        · rw [if_pos hlen] at h
          cases hrec : gdOutGo fuel (rest.drop (b + 1)) with
          | none => rw [hrec] at h; exact absurd h (by simp)
          | some out2 =>
            rw [hrec] at h
            simp only [Option.some.injEq] at h
            rw [gdContentGo, if_neg hb, ih _ out2 hrec, ← h]
            rw [map_range_getD_eq_take_zero rest (b + 1) (by omega)]
        · rw [if_neg hlen] at h; exact absurd h (by simp)

/-- The junk-default content always has the length the length-determination
pass reports. -/
lemma gdContentGo_length : ∀ fuel l, (gdContentGo fuel l).length = gdLenGo fuel l := by
  intro fuel
  induction fuel with
  | zero =>
    intro l
    cases l with
    | nil => rfl
    | cons b rest => rfl
  | succ fuel ih =>
    intro l
    cases l with
    | nil => rfl
    | cons b rest =>
      rw [gdContentGo, gdLenGo]
      by_cases hb : 128 ≤ b
      · rw [if_pos hb, if_pos hb]
        simp [ih]
      · rw [if_neg hb, if_neg hb]
        simp [ih]

/-- When the destination can hold the whole output, the bounded-destination
compressor writes exactly the emitted byte sequence at the running offset
and returns the full count. -/
lemma gcB_spec (src : List Nat) : ∀ fuel rp (d : List Nat) wp,
    wp + (gcOutGo src fuel rp).length ≤ d.length →
    gcBGo src fuel rp d wp = (writeRun d wp (gcOutGo src fuel rp), wp + (gcOutGo src fuel rp).length) := by
  intro fuel
  induction fuel with
  | zero =>
    intro rp d wp _
    show (d, wp) = (writeRun d wp [], wp + ([] : List Nat).length)
    rfl
  | succ fuel ih =>
    intro rp d wp h
    by_cases h1 : rp < src.length
    · rw [gcOutGo, if_pos h1] at h ⊢
      by_cases h2 : 0 < crep src rp ∨ rp + crep src rp + 1 = src.length
      · rw [if_pos h2] at h ⊢
        simp only [List.length_cons] at h
        have hwp1 : wp + 1 < d.length := by omega
        rw [gcBGo, if_pos ⟨h1, by omega⟩, if_pos h2, if_pos hwp1]
        rw [ih (rp + crep src rp + 1) _ (wp + 2)
          (by rw [List.length_set, List.length_set]; omega)]
        have e1 : writeRun d wp
            ((255 - crep src rp) :: src.getD rp 0 :: gcOutGo src fuel (rp + crep src rp + 1))
            = writeRun ((d.set wp (255 - crep src rp)).set (wp + 1) (src.getD rp 0)) (wp + 2)
              (gcOutGo src fuel (rp + crep src rp + 1)) := rfl
        rw [e1]
        simp only [List.length_cons, Prod.mk.injEq]
        exact ⟨trivial, by omega⟩
      · rw [if_neg h2] at h ⊢
        simp only [List.length_cons, List.length_append, List.length_map, List.length_range] at h
        have hlenlits : ((List.range (ccpy src rp)).map (fun i => src.getD (rp + i) 0)).length
            = ccpy src rp := by
          rw [List.length_map, List.length_range]
        rw [gcBGo, if_pos ⟨h1, by omega⟩, if_neg h2]
        rw [ih (rp + ccpy src rp) _ (wp + ccpy src rp + 1)
          (by rw [writeRun_length, List.length_set]; omega)]
        have e1 : writeRun d wp ((ccpy src rp - 1) ::
            ((List.range (ccpy src rp)).map (fun i => src.getD (rp + i) 0)
              ++ gcOutGo src fuel (rp + ccpy src rp)))
            = writeRun (writeRun (d.set wp (ccpy src rp - 1)) (wp + 1)
                ((List.range (ccpy src rp)).map (fun i => src.getD (rp + i) 0)))
              (wp + 1 + ccpy src rp) (gcOutGo src fuel (rp + ccpy src rp)) := by
          show writeRun (d.set wp (ccpy src rp - 1)) (wp + 1) _ = _
          rw [writeRun_append, hlenlits]
        rw [e1]
        simp only [List.length_cons, List.length_append, List.length_map, List.length_range,
          Prod.mk.injEq]
        constructor
        · congr 1
          omega
        · omega
    · rw [gcOutGo, if_neg h1]
      rw [gcBGo, if_neg (fun hc => h1 hc.1)]
      rfl

/-- When the destination can hold the whole output, the bounded-destination
decompressor writes exactly the (junk-default) content at the running
offset and returns the full count. -/
lemma gdB_spec : ∀ fuel (l d : List Nat) wp,
    wp + gdLenGo fuel l ≤ d.length →
    gdBGo fuel l d wp = (writeRun d wp (gdContentGo fuel l), wp + gdLenGo fuel l) := by
  intro fuel
  induction fuel with
  | zero =>
    intro l d wp h
    cases l with
    | nil => show (d, wp) = (writeRun d wp [], wp + 0); rfl
    | cons b rest => show (d, wp) = (writeRun d wp [], wp + 0); rfl
  | succ fuel ih =>
    intro l d wp h
    cases l with
    | nil => show (d, wp) = (writeRun d wp [], wp + 0); rfl
    | cons b rest =>
      by_cases hwp : wp < d.length
      · rw [gdBGo, if_pos hwp]
        by_cases hb : 128 ≤ b
        · rw [if_pos hb]
          rw [gdLenGo, if_pos hb] at h ⊢
          rw [gdContentGo, if_pos hb]
          rw [ih rest.tail _ (wp + (256 - b))
            (by rw [writeRun_length]; omega)]
          rw [writeRun_append, List.length_replicate]
          simp only [Prod.mk.injEq]
          exact ⟨trivial, by omega⟩
        · rw [if_neg hb]
          rw [gdLenGo, if_neg hb] at h ⊢
          rw [gdContentGo, if_neg hb]
          rw [ih (rest.drop (b + 1)) _ (wp + (b + 1))
            (by rw [writeRun_length]; omega)]
          rw [writeRun_append, List.length_map, List.length_range]
          simp only [Prod.mk.injEq]
          exact ⟨trivial, by omega⟩
      · rw [gdBGo, if_neg hwp]
        have h0 : gdLenGo (fuel + 1) (b :: rest) = 0 := by omega
        have hc0 : gdContentGo (fuel + 1) (b :: rest) = [] := by
          have := gdContentGo_length (fuel + 1) (b :: rest)
          rw [h0] at this
          exact List.length_eq_zero.mp this
        rw [h0, hc0]
        show (d, wp) = (d, wp + 0)
        rfl

/-- Unfolding of `gdConsumedGo` on a CPY control byte, for an arbitrary tail. -/
lemma gdConsumedGo_cons_cpy (fuel b : Nat) (rest : List Nat) (hb : ¬ 128 ≤ b) :
    gdConsumedGo (fuel + 1) (b :: rest) =
      if b + 1 ≤ rest.length then gdConsumedGo fuel (rest.drop (b + 1)) else false := by
  cases rest with
  | nil => rw [gdConsumedGo, if_neg hb]
  | cons v rest2 => rw [gdConsumedGo, if_neg hb]

/-- The decompressor reads a payload byte out of bounds (result `none`)
exactly on the streams that fail its `src == send` end-of-stream assert. -/
lemma gdOutGo_none_iff : ∀ fuel l, gdOutGo fuel l = none ↔ gdConsumedGo fuel l = false := by
  intro fuel
  induction fuel with
  | zero =>
    intro l
    cases l with
    | nil => rw [gdOutGo_nil, gdConsumedGo_nil]; simp
    | cons b rest => simp [gdOutGo, gdConsumedGo]
  | succ fuel ih =>
    intro l
    cases l with
    | nil => rw [gdOutGo_nil, gdConsumedGo_nil]; simp
    | cons b rest =>
      by_cases hb : 128 ≤ b
      · cases rest with
        | nil =>
          rw [gdOutGo, if_pos hb, gdConsumedGo, if_pos hb]
          simp
        | cons v rest2 =>
          rw [gdOutGo, if_pos hb, gdConsumedGo, if_pos hb]
          cases hrec : gdOutGo fuel rest2 with
          | none => simp [hrec, (ih rest2).mp hrec]
          | some out2 =>
            have ht : gdConsumedGo fuel rest2 = true := by
              rcases Bool.eq_false_or_eq_true (gdConsumedGo fuel rest2) with ht | hf
              · exact ht
              · rw [(ih rest2).mpr hf] at hrec; simp at hrec
            simp [hrec, ht]
      · rw [gdOutGo_cons_cpy fuel b rest hb, gdConsumedGo_cons_cpy fuel b rest hb]
        by_cases hlen : b + 1 ≤ rest.length
        · rw [if_pos hlen, if_pos hlen]
          cases hrec : gdOutGo fuel (rest.drop (b + 1)) with
          | none => simp [hrec, (ih _).mp hrec]
          | some out2 =>
            have ht : gdConsumedGo fuel (rest.drop (b + 1)) = true := by
              rcases Bool.eq_false_or_eq_true (gdConsumedGo fuel (rest.drop (b + 1))) with ht | hf
              · exact ht
              · rw [(ih _).mpr hf] at hrec; simp at hrec
            simp [hrec, ht]
        · rw [if_neg hlen, if_neg hlen]
          simp

/-- With the cursor at or past the end of the source, the compressor emits
nothing. -/
lemma gcOutGo_ge_len (src : List Nat) : ∀ fuel rp, src.length ≤ rp → gcOutGo src fuel rp = [] := by
  intro fuel rp h
  cases fuel with
  | zero => rfl
  | succ fuel => rw [gcOutGo, if_neg (by omega)]

/-- The compressor's final emitted token is always a two-byte REP token
carrying the source's final byte; its count byte is `255 - cnt` where
`cnt > 0` forces the last two source bytes to be equal. -/
lemma gcOut_ends_rep (src : List Nat) : ∀ fuel rp, src.length - rp ≤ fuel → rp < src.length →
    ∃ w cnt, cnt ≤ 126 ∧
      (0 < cnt → src.getD (src.length - 2) 0 = src.getD (src.length - 1) 0) ∧
      gcOutGo src fuel rp = w ++ [255 - cnt, src.getD (src.length - 1) 0] := by
  intro fuel
  induction fuel with
  | zero => intro rp hf h1; omega
  | succ fuel ih =>
    intro rp hf h1
    rw [gcOutGo, if_pos h1]
    by_cases h2 : 0 < crep src rp ∨ rp + crep src rp + 1 = src.length
    · rw [if_pos h2]
      by_cases hend : rp + crep src rp + 1 = src.length
      · refine ⟨[], crep src rp, crep_le src rp, ?_, ?_⟩
        · intro hpos
          have e1 : src.length - 1 = rp + crep src rp := by omega
          have e2 : src.length - 2 = rp + (crep src rp - 1) := by omega
          rw [e1, e2, crep_all_eq src rp (crep src rp - 1) (by omega),
            crep_all_eq src rp (crep src rp) (by omega)]
        · rw [gcOutGo_ge_len src fuel (rp + crep src rp + 1) (by omega)]
          have e1 : src.length - 1 = rp + crep src rp := by omega
          rw [e1, crep_all_eq src rp (crep src rp) (by omega)]
          rfl
      · have hpos : 0 < crep src rp := by tauto
        have hle := rep_branch_le src rp h1 h2
        obtain ⟨w, cnt, hc, hprev, heq⟩ := ih (rp + crep src rp + 1) (by omega) (by omega)
        refine ⟨(255 - crep src rp) :: src.getD rp 0 :: w, cnt, hc, hprev, ?_⟩
        rw [heq]
        simp
    · rw [if_neg h2]
      obtain ⟨hk, hklen⟩ := cpy_branch_facts src rp h1 h2
      obtain ⟨w, cnt, hc, hprev, heq⟩ := ih (rp + ccpy src rp) (by omega) (by omega)
      refine ⟨(ccpy src rp - 1) ::
        ((List.range (ccpy src rp)).map (fun i => src.getD (rp + i) 0) ++ w), cnt, hc, hprev, ?_⟩
      rw [heq]
      simp

/-- Worst-case growth of the length-determination pass. -/
lemma gcLenGo_le (src : List Nat) : ∀ fuel rp, src.length - rp ≤ fuel →
    gcLenGo src fuel rp ≤ 2 * (src.length - rp) := by
  intro fuel
  induction fuel with
  | zero => intro rp h; simp [gcLenGo]
  | succ fuel ih =>
    intro rp h
    rw [gcLenGo]
    by_cases h1 : rp < src.length
    · rw [if_pos h1]
      by_cases h2 : 0 < crep src rp ∨ rp + crep src rp + 1 = src.length
      · rw [if_pos h2]
        have hle := rep_branch_le src rp h1 h2
        have := ih (rp + crep src rp + 1) (by omega)
        omega
      · rw [if_neg h2]
        obtain ⟨hk, hklen⟩ := cpy_branch_facts src rp h1 h2
        have := ih (rp + ccpy src rp) (by omega)
        omega
    · rw [if_neg h1]
      omega

/-- C2: goldbox round trip — decompressing the compressor's output
reproduces the source exactly, the decompressor's length-determination
pass reports the source length, and decompressing into a destination of
capacity exactly `src.length` yields the source with return value
`src.length`. -/
theorem c2_goldbox_roundtrip (src : List Nat) :
    goldbox_decompress_out (goldbox_compress_out src) = some src ∧
    goldbox_decompress_len (goldbox_compress_out src) = src.length ∧
    goldbox_decompress_buf (goldbox_compress_out src) (List.replicate src.length 0)
      = (src, src.length) := by
  have hout : gdOutGo (gcOutGo src src.length 0).length (gcOutGo src src.length 0)
      = some src := by
    have h := gd_of_gcOut src src.length 0 (by omega)
      (gcOutGo src src.length 0).length (Nat.le_refl _)
    simpa using h
  have hlen := gdLenGo_of_some (gcOutGo src src.length 0).length _ src hout
  refine ⟨hout, hlen, ?_⟩
  have hcont := gdContentGo_of_some (gcOutGo src src.length 0).length _ src hout
  show gdBGo (gcOutGo src src.length 0).length (gcOutGo src src.length 0)
    (List.replicate src.length 0) 0 = (src, src.length)
  rw [gdB_spec (gcOutGo src src.length 0).length (gcOutGo src src.length 0)
    (List.replicate src.length 0) 0 (by rw [hlen, List.length_replicate]; omega)]
  rw [hcont, hlen]
  rw [writeRun_splice src (List.replicate src.length 0) 0 (by simp)]
  simp

/-- C3 counterexample: compressing the 2-byte source `[0x00, 0x01]` with a
present 1-byte destination returns 2, while the length-determination call
(`dest == NULL`) returns 4 — the main loop exits as soon as the running
total reaches `dlen`, so the returned total does depend on the capacity. -/
theorem c3_compress_return_cex :
    (goldbox_compress_buf [0, 1] [0]).2 = 2 ∧ goldbox_compress_len [0, 1] = 4 ∧
    (goldbox_compress_buf [0, 1] [0]).2 ≠ goldbox_compress_len [0, 1] := by
  decide

/-- C3 as amended: the returned total of `goldbox_compress` with a present
destination equals the length-determination value whenever the capacity is
at least that value; with a smaller capacity the loop stops early once the
running total reaches the capacity and may return less. -/
theorem c3_compress_return_independent_of_capacity (src d : List Nat)
    (h : goldbox_compress_len src ≤ d.length) :
    (goldbox_compress_buf src d).2 = goldbox_compress_len src := by
  have hlen : goldbox_compress_len src = (gcOutGo src src.length 0).length :=
    gcLenGo_eq_length src src.length 0
  show (gcBGo src src.length 0 d 0).2 = _
  rw [gcB_spec src src.length 0 d 0 (by omega)]
  simpa using hlen.symm

/-- Witness for C3 at source `[0x00, 0x01]` and an exactly-sized buffer. -/
theorem c3_compress_return_witness :
    goldbox_compress_len [0, 1] ≤ ([0, 0, 0, 0] : List Nat).length ∧
    (goldbox_compress_buf [0, 1] [0, 0, 0, 0]).2 = goldbox_compress_len [0, 1] :=
  ⟨by decide, c3_compress_return_independent_of_capacity [0, 1] [0, 0, 0, 0] (by decide)⟩

/-- C4 counterexample: decompressing the stream `FF 41 FF 42` (two REP-1
tokens, total run count 2) with a present 1-byte destination returns 1,
not 2 — `destCapacity` does bound how far the input stream is parsed. -/
theorem c4_decompress_return_cex :
    (goldbox_decompress_buf [255, 65, 255, 66] [0]).2 = 1 ∧
    goldbox_decompress_len [255, 65, 255, 66] = 2 ∧
    (goldbox_decompress_buf [255, 65, 255, 66] [0]).2
      ≠ goldbox_decompress_len [255, 65, 255, 66] := by
  decide

/-- C4 as amended: the value returned by `goldbox_decompress` with a
present destination equals the total of the run counts embedded in the
stream (the length-determination value) whenever the capacity is at least
that total; with a smaller capacity the loop stops parsing once the
running total reaches the capacity and may return less. -/
theorem c4_decompress_return_independent_of_capacity (l d : List Nat)
    (h : goldbox_decompress_len l ≤ d.length) :
    (goldbox_decompress_buf l d).2 = goldbox_decompress_len l := by
  show (gdBGo l.length l d 0).2 = _
  rw [gdB_spec l.length l d 0 (by simpa using h)]
  simp [goldbox_decompress_len]

/-- Witness for C4 at the stream `FF 41 FF 42` and an exactly-sized buffer. -/
theorem c4_decompress_return_witness :
    goldbox_decompress_len [255, 65, 255, 66] ≤ ([0, 0] : List Nat).length ∧
    (goldbox_decompress_buf [255, 65, 255, 66] [0, 0]).2
      = goldbox_decompress_len [255, 65, 255, 66] :=
  ⟨by decide, c4_decompress_return_independent_of_capacity [255, 65, 255, 66] [0, 0] (by decide)⟩

/-- C5: three-way length-probe consistency with byte-identical content.
For compression: with a destination sized exactly to the
length-determination value the final buffer is exactly the emitted bytes
and the return value is that length; with any at-least-that-large
destination the return value is the same and the written prefix is
byte-identical.  The same holds for decompression (its ample-destination
content being `goldbox_decompress_content`). -/
theorem c5_length_probe_consistency (src d dx l e ex : List Nat)
    (hdx : dx.length = goldbox_compress_len src)
    (hd : goldbox_compress_len src ≤ d.length)
    (hex : ex.length = goldbox_decompress_len l)
    (he : goldbox_decompress_len l ≤ e.length) :
    goldbox_compress_buf src dx = (goldbox_compress_out src, goldbox_compress_len src) ∧
    (goldbox_compress_buf src d).2 = goldbox_compress_len src ∧
    (goldbox_compress_buf src d).1.take (goldbox_compress_len src) = goldbox_compress_out src ∧
    goldbox_decompress_buf l ex = (goldbox_decompress_content l, goldbox_decompress_len l) ∧
    (goldbox_decompress_buf l e).2 = goldbox_decompress_len l ∧
    (goldbox_decompress_buf l e).1.take (goldbox_decompress_len l)
      = goldbox_decompress_content l := by
  have hlen : goldbox_compress_len src = (gcOutGo src src.length 0).length :=
    gcLenGo_eq_length src src.length 0
  have hgl : goldbox_decompress_len l = gdLenGo l.length l := rfl
  have hdlen : goldbox_decompress_len l = (gdContentGo l.length l).length :=
    (gdContentGo_length l.length l).symm
  refine ⟨?_, ?_, ?_, ?_, ?_, ?_⟩
  · show gcBGo src src.length 0 dx 0 = _
    rw [gcB_spec src src.length 0 dx 0 (by omega)]
    rw [writeRun_splice _ dx 0 (by omega)]
    rw [List.drop_eq_nil_of_le (by omega)]
    simp only [List.take_zero, List.nil_append, List.append_nil, Nat.zero_add]
    exact Prod.ext rfl hlen.symm
  · show (gcBGo src src.length 0 d 0).2 = _
    rw [gcB_spec src src.length 0 d 0 (by omega)]
    simpa using hlen.symm
  · show (gcBGo src src.length 0 d 0).1.take _ = _
    rw [gcB_spec src src.length 0 d 0 (by omega)]
    rw [writeRun_splice _ d 0 (by omega)]
    simp only [List.take_zero, List.nil_append]
    rw [hlen, List.take_left' rfl]
    rfl
  · show gdBGo l.length l ex 0 = _
    rw [gdB_spec l.length l ex 0 (by omega)]
    rw [writeRun_splice _ ex 0 (by omega)]
    rw [List.drop_eq_nil_of_le (by omega)]
    simp only [List.take_zero, List.nil_append, List.append_nil, Nat.zero_add]
    rfl
  · show (gdBGo l.length l e 0).2 = _
    rw [gdB_spec l.length l e 0 (by omega)]
    simp [goldbox_decompress_len]
  · show (gdBGo l.length l e 0).1.take _ = _
    rw [gdB_spec l.length l e 0 (by omega)]
    rw [writeRun_splice _ e 0 (by omega)]
    simp only [List.take_zero, List.nil_append]
    rw [hdlen, List.take_left' rfl]
    rfl

/-- Witness for C5: source `[0x00]` (compressed size 2) and stream
`FF 07` (decompressed size 1) with exactly-sized and oversized buffers. -/
theorem c5_length_probe_consistency_witness :
    ([9, 9] : List Nat).length = goldbox_compress_len [0] ∧
    goldbox_compress_len [0] ≤ ([1, 2, 3] : List Nat).length ∧
    ([4] : List Nat).length = goldbox_decompress_len [255, 7] ∧
    goldbox_decompress_len [255, 7] ≤ ([5, 6] : List Nat).length ∧
    goldbox_compress_buf [0] [9, 9] = (goldbox_compress_out [0], goldbox_compress_len [0]) :=
  ⟨by decide, by decide, by decide, by decide,
   (c5_length_probe_consistency [0] [1, 2, 3] [9, 9] [255, 7] [5, 6] [4]
     (by decide) (by decide) (by decide) (by decide)).1⟩

/-- C6 counterexample: the stream consisting of the single goldbox Repeat
control byte 0xFF (payload byte missing) makes `goldbox_decompress` read
the payload from beyond the end of the source (`none` in the embedding)
and fail its `src == send` assertion; no recoverable error value is
reported — the function's only output is the running byte count. -/
theorem c6_truncated_stream_cex :
    goldbox_decompress_out [255] = none ∧ goldbox_decompress_consumed [255] = false := by
  decide

/-- C6 as amended: the original decompressor assumes well-formed input.
On exactly the streams that end mid-operation (those failing the
`src == send` end-of-input contract) a payload read falls outside the
source buffer (an undefined out-of-bounds read in the C, `none` in this
embedding); on completely parsed streams no out-of-bounds read occurs.
No recoverable error value is reported in either case. -/
theorem c6_truncated_stream_oob (l : List Nat) :
    goldbox_decompress_out l = none ↔ goldbox_decompress_consumed l = false :=
  gdOutGo_none_iff l.length l

/-- C7: for every non-empty source the final token `goldbox_compress`
emits is a two-byte Repeat (control byte `255 - cnt ≥ 0x81`) carrying the
final source byte; in particular when the last byte differs from its
predecessor it is emitted as `FF` followed by that byte (a Repeat of
length 1), never folded into a preceding Copy. -/
theorem c7_final_token_is_rep (src : List Nat) :
    (src ≠ [] →
      ∃ w cnt, cnt ≤ 126 ∧ 129 ≤ 255 - cnt ∧
        goldbox_compress_out src = w ++ [255 - cnt, src.getD (src.length - 1) 0]) ∧
    (2 ≤ src.length → src.getD (src.length - 2) 0 ≠ src.getD (src.length - 1) 0 →
      ∃ w, goldbox_compress_out src = w ++ [255, src.getD (src.length - 1) 0]) := by
  constructor
  · intro hne
    have hpos : 0 < src.length := List.length_pos.mpr hne
    obtain ⟨w, cnt, hc, -, heq⟩ := gcOut_ends_rep src src.length 0 (by omega) hpos
    exact ⟨w, cnt, hc, by omega, heq⟩
  · intro hlen hne
    obtain ⟨w, cnt, -, hprev, heq⟩ := gcOut_ends_rep src src.length 0 (by omega) (by omega)
    have hcnt0 : cnt = 0 := by
      by_contra hh
      exact hne (hprev (by omega))
    subst hcnt0
    exact ⟨w, by simpa using heq⟩

/-- Witness for C7 at the one-byte source `[5]`. -/
theorem c7_final_token_is_rep_witness :
    ([5] : List Nat) ≠ [] ∧
    ∃ w cnt, cnt ≤ 126 ∧ 129 ≤ 255 - cnt ∧
      goldbox_compress_out [5] = w ++ [255 - cnt, ([5] : List Nat).getD (([5] : List Nat).length - 1) 0] :=
  ⟨by decide, (c7_final_token_is_rep [5]).1 (by decide)⟩

/-- C10: worst-case expansion bound — the length-determination pass of
`goldbox_compress` never reports more than twice the source length (every
REP token consumes at least one source byte and contributes 2; every CPY
token consumes `cnt ≥ 1` bytes and contributes `cnt + 1 ≤ 2 * cnt`). -/
theorem c10_expansion_bound (src : List Nat) :
    goldbox_compress_len src ≤ 2 * src.length := by
  have h := gcLenGo_le src src.length 0 (by omega)
  simpa using h

end RleZoo
